import Mathlib

/-!
# Verification of the outline document core

Shallow embedding of the operation-log document store of the `outline`
repository (`src/app/src-tauri/src`), together with proofs about the
properties its specification states.

Machine integers are modelled as follows: `Uuid` (a 128-bit id used only
for equality) as `Nat`; `DateTime<Utc>` timestamps (used only for ordering
and equality) as `Nat`; `i32` positions as `Int` (no arithmetic is ever
performed on positions, they are only stored and compared).
-/

namespace Outline

abbrev Uuid := Nat
abbrev Timestamp := Nat

/-- Rust enum `NodeType` from `data/node.rs`. -/
inductive NodeType where
  | bullet
  | checkbox
  | heading
deriving DecidableEq, Repr

/-- Rust struct `Node` from `data/node.rs`. -/
structure Node where
  id : Uuid
  parent_id : Option Uuid
  position : Int
  content : String
  note : Option String
  node_type : NodeType
  heading_level : Option Nat
  is_checked : Bool
  color : Option String
  tags : List String
  date : Option String
  date_recurrence : Option String
  collapsed : Bool
  mirror_source_id : Option Uuid
  created_at : Timestamp
  updated_at : Timestamp
deriving DecidableEq, Repr

/-- Rust struct `NodeChanges` from `data/operations.rs`: a sparse patch. -/
structure NodeChanges where
  content : Option String := none
  note : Option String := none
  node_type : Option NodeType := none
  heading_level : Option Nat := none
  is_checked : Option Bool := none
  color : Option String := none
  tags : Option (List String) := none
  date : Option String := none
  date_recurrence : Option String := none
  collapsed : Option Bool := none
  mirror_source_id : Option Uuid := none
deriving DecidableEq, Repr

/-- Rust enum `Operation` from `data/operations.rs`. -/
inductive Operation where
  | create (id : Uuid) (parent_id : Option Uuid) (position : Int)
      (content : String) (node_type : NodeType) (updated_at : Timestamp)
  | update (id : Uuid) (changes : NodeChanges) (updated_at : Timestamp)
  | move (id : Uuid) (parent_id : Option Uuid) (position : Int)
      (updated_at : Timestamp)
  | delete (id : Uuid) (updated_at : Timestamp)
deriving DecidableEq, Repr

/-- Rust method `Operation::updated_at` from `data/operations.rs`. -/
def Operation.updated_at : Operation → Timestamp
  | .create _ _ _ _ _ t => t
  | .update _ _ t => t
  | .move _ _ _ t => t
  | .delete _ t => t

/-- Rust struct `DocumentState` from `data/document.rs`. -/
structure DocumentState where
  nodes : List Node
deriving DecidableEq, Repr

/-- The sequence of `if let Some(...)` assignments in the `Update` arm of
`Operation::apply` (`data/operations.rs`), applied to one node that passed
the `*updated_at > node.updated_at` guard.  For `date` and
`date_recurrence` the empty string clears the field, exactly as in the
source.  The final assignment sets `updated_at`. -/
def applyChanges (changes : NodeChanges) (updated_at : Timestamp) (n : Node) : Node :=
  { n with
    content := match changes.content with
      | some c => c
      | none => n.content
    note := match changes.note with
      | some v => some v
      | none => n.note
    node_type := match changes.node_type with
      | some v => v
      | none => n.node_type
    heading_level := match changes.heading_level with
      | some v => some v
      | none => n.heading_level
    is_checked := match changes.is_checked with
      | some v => v
      | none => n.is_checked
    color := match changes.color with
      | some v => some v
      | none => n.color
    tags := match changes.tags with
      | some v => v
      | none => n.tags
    date := match changes.date with
      | some d => if d = "" then none else some d
      | none => n.date
    date_recurrence := match changes.date_recurrence with
      | some d => if d = "" then none else some d
      | none => n.date_recurrence
    collapsed := match changes.collapsed with
      | some v => v
      | none => n.collapsed
    mirror_source_id := match changes.mirror_source_id with
      | some v => some v
      | none => n.mirror_source_id
    updated_at := updated_at }

/-- Embedding of `state.nodes.iter_mut().find(|n| n.id == *id)` followed by an in-place
mutation: the first node satisfying `p` is replaced by `f` of itself; all
other nodes are untouched. -/
def updateFirst (p : Node → Bool) (f : Node → Node) : List Node → List Node
  | [] => []
  | n :: rest => if p n then f n :: rest else n :: updateFirst p f rest

/-- Body of the inner `for node in state.nodes.iter()` loop of the
`Delete` arm of `Operation::apply`: push `node.id` onto `to_delete` when
`node.parent_id == Some(parent_id) && !to_delete.contains(&node.id)`. -/
def deleteStep (parentId : Uuid) (acc : List Uuid) (n : Node) : List Uuid :=
  if n.parent_id == some parentId && !(acc.contains n.id) then acc ++ [n.id]
  else acc

/-- The `while i < to_delete.len()` loop of the `Delete` arm of
`Operation::apply`.  `toDelete` is the worklist vector, `i` the loop index;
the inner `for node in state.nodes.iter()` is the fold of `deleteStep`.
The Rust loop terminates because `to_delete` holds pairwise-distinct ids,
each (apart from the seed) the id of some node, so it runs at most
`nodes.length + 1` iterations; the embedding makes that bound an explicit
fuel argument, and `expandDelete_processed` below proves the fuelled run
reaches the loop's exit condition and computes the full fixed point. -/
def expandDelete (nodes : List Node) : Nat → List Uuid → Nat → List Uuid
  | 0, toDelete, _ => toDelete
  | fuel + 1, toDelete, i =>
    if h : i < toDelete.length then
      expandDelete nodes fuel
        (nodes.foldl (deleteStep (toDelete.get ⟨i, h⟩)) toDelete) (i + 1)
    else toDelete

/-- The fresh node built by the `Create` arm of `Operation::apply`: every
scalar field defaulted, `created_at = updated_at = op.updated_at`. -/
def createdNode (id : Uuid) (parent_id : Option Uuid) (position : Int)
    (content : String) (node_type : NodeType) (updated_at : Timestamp) : Node :=
  { id := id
    parent_id := parent_id
    position := position
    content := content
    note := none
    node_type := node_type
    heading_level := none
    is_checked := false
    color := none
    tags := []
    date := none
    date_recurrence := none
    collapsed := false
    mirror_source_id := none
    created_at := updated_at
    updated_at := updated_at }

/-- Rust method `Operation::apply` from `data/operations.rs`. -/
def Operation.apply (op : Operation) (state : DocumentState) : DocumentState :=
  match op with
  | .create id parent_id position content node_type updated_at =>
    if state.nodes.any (fun n => n.id == id) then state
    else
      { nodes := state.nodes ++ [createdNode id parent_id position content node_type updated_at] }
  | .update id changes updated_at =>
    { nodes := updateFirst (fun n => n.id == id)
        (fun n => if updated_at > n.updated_at then applyChanges changes updated_at n else n)
        state.nodes }
  | .move id parent_id position updated_at =>
    { nodes := updateFirst (fun n => n.id == id)
        (fun n => if updated_at > n.updated_at then
            { n with parent_id := parent_id, position := position, updated_at := updated_at }
          else n)
        state.nodes }
  | .delete id _ =>
    let toDelete := expandDelete state.nodes (state.nodes.length + 1) [id] 0
    { nodes := state.nodes.filter (fun n => !(toDelete.contains n.id)) }

/-- The fold `for op in ops { op.apply(&mut state) }` of `Document::load`
and of replay in general. -/
def applyList (ops : List Operation) (s : DocumentState) : DocumentState :=
  ops.foldl (fun s op => op.apply s) s

/-- Ordering of operations by timestamp, the sort key of `Document::load`. -/
def opLe (a b : Operation) : Prop := a.updated_at ≤ b.updated_at

instance : DecidableRel opLe := fun a b => Nat.decLe a.updated_at b.updated_at

instance : IsTotal Operation opLe := ⟨fun a b => Nat.le_total a.updated_at b.updated_at⟩

instance : IsTrans Operation opLe := ⟨fun _ _ _ => Nat.le_trans⟩

/-- Embedding of `ops.sort_by_key(|op| op.updated_at())` of `Document::load`: a stable
sort by timestamp (Rust `sort_by_key` is stable; `List.insertionSort` with
`≤` on the key is stable in the same sense). -/
def sortOps (ops : List Operation) : List Operation :=
  List.insertionSort opLe ops

/-! ## Helper lemmas about `updateFirst` -/

theorem updateFirst_no_match (p : Node → Bool) (f : Node → Node) :
    ∀ l : List Node, (∀ n ∈ l, p n = false) → updateFirst p f l = l := by
  intro l h
  induction l with
  | nil => rfl
  | cons n rest ih =>
    simp only [updateFirst, h n (List.mem_cons_self n rest)]
    simp only [Bool.false_eq_true, if_false, List.cons.injEq, true_and]
    exact ih fun m hm => h m (List.mem_cons_of_mem n hm)

theorem updateFirst_append (p : Node → Bool) (f : Node → Node)
    (pre l : List Node) (h : ∀ m ∈ pre, p m = false) :
    updateFirst p f (pre ++ l) = pre ++ updateFirst p f l := by
  induction pre with
  | nil => rfl
  | cons m rest ih =>
    simp only [List.cons_append, updateFirst, h m (List.mem_cons_self m rest)]
    simp only [Bool.false_eq_true, if_false, List.cons.injEq, true_and]
    exact ih fun x hx => h x (List.mem_cons_of_mem m hx)

theorem updateFirst_cons_match (p : Node → Bool) (f : Node → Node)
    (n : Node) (rest : List Node) (h : p n = true) :
    updateFirst p f (n :: rest) = f n :: rest := by
  simp [updateFirst, h]

/-- C1: for every document state and every Update operation, apply is a
no-op when no node with the operation's id exists or when the operation's
`updated_at` is not strictly newer than that node's current `updated_at`;
otherwise apply assigns every present field of the sparse patch (for
`date` and `date_recurrence` only, an empty string clears the field and a
non-empty string sets it) and sets the node's `updated_at` to the
operation's `updated_at`.  "That node" is the first node with the id, as
found by `iter_mut().find` in the source. -/
theorem update_apply_semantics (s : DocumentState) (i : Uuid)
    (ch : NodeChanges) (t : Timestamp) :
    ((∀ n ∈ s.nodes, n.id ≠ i) → (Operation.update i ch t).apply s = s)
  ∧ (∀ pre n post,
      s.nodes = pre ++ n :: post → (∀ m ∈ pre, m.id ≠ i) → n.id = i →
      (¬ n.updated_at < t → (Operation.update i ch t).apply s = s)
      ∧ (n.updated_at < t → ∃ nn,
          ((Operation.update i ch t).apply s).nodes = pre ++ nn :: post
        ∧ nn.id = n.id ∧ nn.parent_id = n.parent_id ∧ nn.position = n.position
        ∧ nn.created_at = n.created_at
        ∧ nn.content = ch.content.getD n.content
        ∧ nn.note = (ch.note.map some).getD n.note
        ∧ nn.node_type = ch.node_type.getD n.node_type
        ∧ nn.heading_level = (ch.heading_level.map some).getD n.heading_level
        ∧ nn.is_checked = ch.is_checked.getD n.is_checked
        ∧ nn.color = (ch.color.map some).getD n.color
        ∧ nn.tags = ch.tags.getD n.tags
        ∧ nn.date = (match ch.date with
            | some d => if d = "" then none else some d
            | none => n.date)
        ∧ nn.date_recurrence = (match ch.date_recurrence with
            | some d => if d = "" then none else some d
            | none => n.date_recurrence)
        ∧ nn.collapsed = ch.collapsed.getD n.collapsed
        ∧ nn.mirror_source_id = (ch.mirror_source_id.map some).getD n.mirror_source_id
        ∧ nn.updated_at = t)) := by
  constructor
  · intro h
    show DocumentState.mk _ = s
    rw [updateFirst_no_match]
    · intro m hm
      simpa using h m hm
  · intro pre n post hs hpre hid
    have hsplit : updateFirst (fun m => m.id == i)
        (fun m => if t > m.updated_at then applyChanges ch t m else m) s.nodes
        = pre ++ (if t > n.updated_at then applyChanges ch t n else n) :: post := by
      rw [hs, updateFirst_append _ _ _ _ (fun m hm => by simpa using hpre m hm),
        updateFirst_cons_match _ _ _ _ (by simpa using hid)]
    constructor
    · intro hnot
      have hguard : ¬ t > n.updated_at := hnot
      show DocumentState.mk _ = s
      rw [hsplit, if_neg hguard, ← hs]
    · intro hlt
      refine ⟨applyChanges ch t n, ?_, ?_, ?_, ?_, ?_, ?_, ?_, ?_, ?_, ?_, ?_, ?_, ?_, ?_, ?_, ?_, ?_⟩
      · show updateFirst _ _ s.nodes = _
        rw [hsplit, if_pos hlt]
      · simp [applyChanges]
      · simp [applyChanges]
      · simp [applyChanges]
      · simp [applyChanges]
      · cases hc : ch.content <;> simp [applyChanges, hc]
      · cases hc : ch.note <;> simp [applyChanges, hc]
      · cases hc : ch.node_type <;> simp [applyChanges, hc]
      · cases hc : ch.heading_level <;> simp [applyChanges, hc]
      · cases hc : ch.is_checked <;> simp [applyChanges, hc]
      · cases hc : ch.color <;> simp [applyChanges, hc]
      · cases hc : ch.tags <;> simp [applyChanges, hc]
      · cases hc : ch.date <;> simp [applyChanges, hc]
      · cases hc : ch.date_recurrence <;> simp [applyChanges, hc]
      · cases hc : ch.collapsed <;> simp [applyChanges, hc]
      · cases hc : ch.mirror_source_id <;> simp [applyChanges, hc]
      · simp [applyChanges]

/-- Witness for C1 at a concrete input: a state whose only node has id 1,
updated against id 2 — the no-node branch fires and the state is
unchanged. -/
def nodeW : Node :=
  { id := 1, parent_id := none, position := 0, content := "w", note := none,
    node_type := .bullet, heading_level := none, is_checked := false,
    color := none, tags := [], date := none, date_recurrence := none,
    collapsed := false, mirror_source_id := none, created_at := 0, updated_at := 0 }

/-- Closed instance of `update_apply_semantics`. -/
theorem update_apply_semantics_witness :
    (Operation.update 2 {} 5).apply ⟨[nodeW]⟩ = ⟨[nodeW]⟩ :=
  (update_apply_semantics ⟨[nodeW]⟩ 2 {} 5).1 (by decide)

/-! ## C10: uniqueness of node ids is preserved by `apply` -/

theorem updateFirst_map_id (p : Node → Bool) (f : Node → Node)
    (hf : ∀ n, (f n).id = n.id) :
    ∀ l : List Node, (updateFirst p f l).map Node.id = l.map Node.id := by
  intro l
  induction l with
  | nil => rfl
  | cons n rest ih =>
    by_cases hp : p n
    · simp [updateFirst, hp, hf n]
    · simp [updateFirst, hp, ih]

/-- C10: Uniqueness of node ids is an invariant preserved by `apply`: for
every operation, if all node ids in the document state are pairwise
distinct before `apply`, they remain pairwise distinct after (Create
inserts only when no node with the operation's id exists; Update, Move
and Delete never add nodes). -/
theorem apply_preserves_id_nodup (s : DocumentState) (op : Operation)
    (h : (s.nodes.map Node.id).Nodup) :
    (((op.apply s).nodes).map Node.id).Nodup := by
  cases op with
  | create i pid pos c nt t =>
    by_cases hex : s.nodes.any (fun n => n.id == i)
    · simpa [Operation.apply, hex] using h
    · have hnotin : i ∉ s.nodes.map Node.id := by
        intro hmem
        rcases List.mem_map.1 hmem with ⟨n, hn, hni⟩
        rw [List.any_eq_true] at hex
        exact hex ⟨n, hn, by simpa using hni⟩
      have : ((Operation.create i pid pos c nt t).apply s).nodes
          = s.nodes ++ [createdNode i pid pos c nt t] := by
        simp [Operation.apply, hex]
      rw [this, List.map_append]
      rw [List.nodup_append]
      exact ⟨h, List.nodup_singleton i, by
        intro a ha hb
        simp at hb
        subst hb
        exact hnotin ha⟩
  | update i ch t =>
    have : (((Operation.update i ch t).apply s).nodes).map Node.id
        = s.nodes.map Node.id := by
      simp only [Operation.apply]
      exact updateFirst_map_id _ _ (fun n => by
        by_cases hg : t > n.updated_at <;> simp [hg, applyChanges]) s.nodes
    rw [this]; exact h
  | move i pid pos t =>
    have : (((Operation.move i pid pos t).apply s).nodes).map Node.id
        = s.nodes.map Node.id := by
      simp only [Operation.apply]
      exact updateFirst_map_id _ _ (fun n => by
        by_cases hg : t > n.updated_at <;> simp [hg]) s.nodes
    rw [this]; exact h
  | delete i t =>
    have hsub : ((Operation.delete i t).apply s).nodes.Sublist s.nodes := by
      simp only [Operation.apply]
      exact List.filter_sublist s.nodes
    exact h.sublist (hsub.map Node.id)

/-- Closed instance of `apply_preserves_id_nodup`. -/
theorem apply_preserves_id_nodup_witness :
    ((((Operation.create 2 none 0 "x" .bullet 4).apply ⟨[nodeW]⟩).nodes).map Node.id).Nodup :=
  apply_preserves_id_nodup ⟨[nodeW]⟩ (Operation.create 2 none 0 "x" .bullet 4) (by decide)

/-! ## C2: delete removes exactly the transitive descendant set -/

/-- Spec-side reading of the claim: the transitive descendant set is the
least fixed point of adding any node whose parent is already in the set,
seeded with the deleted id itself. -/
inductive DescSet (nodes : List Node) (x : Uuid) : Uuid → Prop where
  | base : DescSet nodes x x
  | step (n : Node) (p : Uuid) : n ∈ nodes → n.parent_id = some p →
      DescSet nodes x p → DescSet nodes x n.id

/-- Spec-side reading of the claim: node `n` of the list has an ancestor
chain passing through `x` — following `parent_id` links through nodes of
the list reaches a node whose parent is `x`. -/
inductive ChainTo (nodes : List Node) (x : Uuid) : Node → Prop where
  | direct (n : Node) : n ∈ nodes → n.parent_id = some x → ChainTo nodes x n
  | step (n m : Node) : n ∈ nodes → m ∈ nodes → n.parent_id = some m.id →
      ChainTo nodes x m → ChainTo nodes x n

theorem mem_foldl_deleteStep (pid : Uuid) (a : Uuid) :
    ∀ (nodes : List Node) (acc : List Uuid), a ∈ acc →
      a ∈ nodes.foldl (deleteStep pid) acc := by
  intro nodes
  induction nodes with
  | nil => intro acc h; exact h
  | cons n rest ih =>
    intro acc h
    refine ih _ ?_
    unfold deleteStep
    split
    · exact List.mem_append_left _ h
    · exact h

theorem prefix_foldl_deleteStep (pid : Uuid) :
    ∀ (nodes : List Node) (acc : List Uuid),
      acc <+: nodes.foldl (deleteStep pid) acc := by
  intro nodes
  induction nodes with
  | nil => intro acc; exact List.prefix_refl acc
  | cons n rest ih =>
    intro acc
    refine List.IsPrefix.trans ?_ (ih (deleteStep pid acc n))
    unfold deleteStep
    split
    · exact ⟨[n.id], rfl⟩
    · exact List.prefix_refl acc

theorem mem_foldl_deleteStep_elim (pid : Uuid) (a : Uuid) :
    ∀ (nodes : List Node) (acc : List Uuid),
      a ∈ nodes.foldl (deleteStep pid) acc →
      a ∈ acc ∨ ∃ n ∈ nodes, a = n.id ∧ n.parent_id = some pid := by
  intro nodes
  induction nodes with
  | nil => intro acc h; exact Or.inl h
  | cons n rest ih =>
    intro acc h
    rcases ih (deleteStep pid acc n) h with h1 | ⟨m, hm, ha, hp⟩
    · unfold deleteStep at h1
      by_cases hg : (n.parent_id == some pid && !(acc.contains n.id)) = true
      · rw [if_pos hg] at h1
        have hg2 : (n.parent_id == some pid) = true ∧ (!(acc.contains n.id)) = true :=
          Bool.and_eq_true _ _ ▸ hg
        rcases List.mem_append.1 h1 with h2 | h2
        · exact Or.inl h2
        · refine Or.inr ⟨n, List.mem_cons_self n rest, List.mem_singleton.1 h2, ?_⟩
          exact eq_of_beq hg2.1
      · rw [if_neg hg] at h1
        exact Or.inl h1
    · exact Or.inr ⟨m, List.mem_cons_of_mem n hm, ha, hp⟩

theorem foldl_deleteStep_closure (pid : Uuid) :
    ∀ (nodes : List Node) (acc : List Uuid),
      ∀ n ∈ nodes, n.parent_id = some pid →
        n.id ∈ nodes.foldl (deleteStep pid) acc := by
  intro nodes
  induction nodes with
  | nil => intro acc n h; cases h
  | cons m rest ih =>
    intro acc n hn hp
    rcases List.mem_cons.1 hn with rfl | hn2
    · refine mem_foldl_deleteStep pid n.id rest _ ?_
      unfold deleteStep
      by_cases hc : acc.contains n.id = true
    -- if the id is already in the worklist the guard is false but the id
    -- is already present; otherwise the guard fires and appends it
      · have hg : (n.parent_id == some pid && !(acc.contains n.id)) = false := by
          rw [hc]; simp
        rw [hg]
        simp only [Bool.false_eq_true, if_false]
        exact List.elem_iff.1 hc
      · have hg : (n.parent_id == some pid && !(acc.contains n.id)) = true := by
          rw [hp]
          simp only [beq_self_eq_true, Bool.true_and, Bool.not_eq_true']
          exact Bool.not_eq_true _ ▸ hc
        rw [if_pos hg]
        exact List.mem_append_right _ (List.mem_singleton.2 rfl)
    · exact ih _ n hn2 hp

theorem nodup_foldl_deleteStep (pid : Uuid) :
    ∀ (nodes : List Node) (acc : List Uuid), acc.Nodup →
      (nodes.foldl (deleteStep pid) acc).Nodup := by
  intro nodes
  induction nodes with
  | nil => intro acc h; exact h
  | cons n rest ih =>
    intro acc h
    refine ih _ ?_
    unfold deleteStep
    by_cases hg : (n.parent_id == some pid && !(acc.contains n.id)) = true
    · rw [if_pos hg]
      have hg2 : (n.parent_id == some pid) = true ∧ (!(acc.contains n.id)) = true :=
        Bool.and_eq_true _ _ ▸ hg
      rw [List.nodup_append]
      refine ⟨h, List.nodup_singleton _, ?_⟩
      intro a ha hb
      rw [List.mem_singleton] at hb
      subst hb
      have h3 : acc.contains n.id = false := Bool.not_eq_true' _ ▸ hg2.2
      rw [← Bool.not_eq_true] at h3
      exact h3 (List.elem_iff.2 ha)
    · rw [if_neg hg]; exact h

theorem prefix_get_eq {l l2 : List Uuid} (h : l <+: l2) {j : Nat}
    (hj : j < l.length) (hj2 : j < l2.length) :
    l2.get ⟨j, hj2⟩ = l.get ⟨j, hj⟩ := by
  rcases h with ⟨tail, rfl⟩
  exact List.get_append j hj

theorem expandDelete_extends (nodes : List Node) :
    ∀ (fuel : Nat) (td : List Uuid) (i : Nat),
      td <+: expandDelete nodes fuel td i := by
  intro fuel
  induction fuel with
  | zero => intro td i; exact List.prefix_refl td
  | succ fuel ih =>
    intro td i
    unfold expandDelete
    split
    · exact List.IsPrefix.trans (prefix_foldl_deleteStep _ nodes td) (ih _ _)
    · exact List.prefix_refl td

theorem expandDelete_sound (nodes : List Node) (x : Uuid) :
    ∀ (fuel : Nat) (td : List Uuid) (i : Nat),
      (∀ a ∈ td, DescSet nodes x a) →
      ∀ a ∈ expandDelete nodes fuel td i, DescSet nodes x a := by
  intro fuel
  induction fuel with
  | zero => intro td i h; exact h
  | succ fuel ih =>
    intro td i h
    unfold expandDelete
    split
    · rename_i hi
      refine ih _ _ ?_
      intro a ha
      rcases mem_foldl_deleteStep_elim _ a nodes td ha with h1 | ⟨n, hn, rfl, hp⟩
      · exact h a h1
      · exact DescSet.step n _ hn hp (h _ (td.get_mem _ _))
    · exact h

theorem expandDelete_processed (nodes : List Node) (x : Uuid) :
    ∀ (fuel : Nat) (td : List Uuid) (i : Nat),
      td.Nodup →
      (∀ a ∈ td, a = x ∨ a ∈ nodes.map Node.id) →
      (∀ j, j < i → ∀ (hj : j < td.length),
        ∀ n ∈ nodes, n.parent_id = some (td.get ⟨j, hj⟩) → n.id ∈ td) →
      nodes.length + 1 ≤ fuel + i →
      ∀ p ∈ expandDelete nodes fuel td i,
        ∀ n ∈ nodes, n.parent_id = some p → n.id ∈ expandDelete nodes fuel td i := by
  intro fuel
  induction fuel with
  | zero =>
    intro td i hnd hsub hproc hfuel p hp n hn hpar
    have hlen : td.length ≤ nodes.length + 1 := by
      have h1 : td ⊆ x :: nodes.map Node.id := by
        intro a ha
        rcases hsub a ha with rfl | h2
        · exact List.mem_cons_self _ _
        · exact List.mem_cons_of_mem _ h2
      have := (List.Nodup.subperm hnd h1).length_le
      simpa using this
    rcases List.mem_iff_get.1 hp with ⟨⟨j, hj⟩, rfl⟩
    exact hproc j (lt_of_lt_of_le hj (le_trans hlen (by omega))) hj n hn hpar
  | succ fuel ih =>
    intro td i hnd hsub hproc hfuel p hp n hn hpar
    simp only [expandDelete] at hp ⊢
    by_cases hi : i < td.length
    · rw [dif_pos hi] at hp ⊢
      refine ih _ (i + 1) ?_ ?_ ?_ ?_ p hp n hn hpar
      · exact nodup_foldl_deleteStep _ nodes td hnd
      · intro a ha
        rcases mem_foldl_deleteStep_elim _ a nodes td ha with h1 | ⟨m, hm, rfl, _⟩
        · exact hsub a h1
        · exact Or.inr (List.mem_map_of_mem Node.id hm)
      · intro j hj hj2 m hm hpm
        have hji : j < td.length := by omega
        have hget := prefix_get_eq (prefix_foldl_deleteStep (td.get ⟨i, hi⟩) nodes td)
          hji hj2
        rcases Nat.lt_or_ge j i with hji2 | hji2
        · have := hproc j hji2 hji m hm (by rw [← hget]; exact hpm)
          exact (prefix_foldl_deleteStep _ nodes td).sublist.subset this
        · have hjeq : j = i := by omega
          subst hjeq
          refine foldl_deleteStep_closure _ nodes td m hm ?_
          rw [hpm, hget]
      · omega
    · rw [dif_neg hi] at hp ⊢
      have hlen : td.length ≤ nodes.length + 1 := by
        have h1 : td ⊆ x :: nodes.map Node.id := by
          intro a ha
          rcases hsub a ha with rfl | h2
          · exact List.mem_cons_self _ _
          · exact List.mem_cons_of_mem _ h2
        have := (List.Nodup.subperm hnd h1).length_le
        simpa using this
      rcases List.mem_iff_get.1 hp with ⟨⟨j, hj⟩, rfl⟩
      exact hproc j (by omega) hj n hn hpar

theorem expandDelete_complete (nodes : List Node) (x : Uuid) (a : Uuid)
    (h : DescSet nodes x a) :
    a ∈ expandDelete nodes (nodes.length + 1) [x] 0 := by
  induction h with
  | base =>
    exact (expandDelete_extends nodes _ [x] 0).sublist.subset (List.mem_singleton.2 rfl)
  | step n p hn hp _ ih =>
    refine expandDelete_processed nodes x (nodes.length + 1) [x] 0
      (List.nodup_singleton x) ?_ ?_ (by omega) p ih n hn hp
    · intro b hb
      rw [List.mem_singleton] at hb
      exact Or.inl hb
    · intro j hj
      omega

/-- C2: for every document state and every Delete operation, apply removes
the node with the operation's id together with its entire transitive
descendant set (the fixed point of adding any node whose parent is already
in the set), unconditionally with respect to `updated_at`; immediately
after the Delete is applied, no node remaining in the state has an
ancestor chain passing through the deleted id. -/
theorem delete_apply_semantics (s : DocumentState) (x : Uuid) (t : Timestamp) :
    (∀ t2, (Operation.delete x t).apply s = (Operation.delete x t2).apply s)
  ∧ (∀ n, n ∈ ((Operation.delete x t).apply s).nodes
      ↔ n ∈ s.nodes ∧ ¬ DescSet s.nodes x n.id)
  ∧ (∀ n, ¬ ChainTo (((Operation.delete x t).apply s).nodes) x n) := by
  have hmem : ∀ n, n ∈ ((Operation.delete x t).apply s).nodes
      ↔ n ∈ s.nodes ∧ ¬ DescSet s.nodes x n.id := by
    intro n
    show n ∈ s.nodes.filter _ ↔ _
    rw [List.mem_filter]
    constructor
    · rintro ⟨h1, h2⟩
      refine ⟨h1, fun hd => ?_⟩
      have := expandDelete_complete s.nodes x n.id hd
      rw [Bool.not_eq_true', ← Bool.not_eq_true] at h2
      exact h2 (List.elem_iff.2 this)
    · rintro ⟨h1, h2⟩
      refine ⟨h1, ?_⟩
      have : ¬ (expandDelete s.nodes (s.nodes.length + 1) [x] 0).contains n.id := by
        intro hc
        exact h2 (expandDelete_sound s.nodes x _ [x] 0
          (fun a ha => by rw [List.mem_singleton] at ha; subst ha; exact DescSet.base)
          n.id (List.elem_iff.1 hc))
      simpa using this
  refine ⟨fun t2 => rfl, hmem, ?_⟩
  intro n hchain
  induction hchain with
  | direct m hm hpar =>
    rcases (hmem m).1 hm with ⟨hmem2, hnot⟩
    exact hnot (DescSet.step m x hmem2 hpar DescSet.base)
  | step m k hmk hk hpar _ ih => exact ih

/-- Closed instance of `delete_apply_semantics`: the timestamp of a Delete
is irrelevant. -/
theorem delete_apply_semantics_witness :
    (Operation.delete 5 1).apply ⟨[nodeW]⟩ = (Operation.delete 5 2).apply ⟨[nodeW]⟩ :=
  (delete_apply_semantics ⟨[nodeW]⟩ 5 1).1 2

/-! ## C4: commutativity of two Updates under LWW -/

/-- Every field present in the first sparse patch is also present in the
second. -/
def NodeChanges.presentIn (c1 c2 : NodeChanges) : Prop :=
  (c1.content.isSome = true → c2.content.isSome = true)
  ∧ (c1.note.isSome = true → c2.note.isSome = true)
  ∧ (c1.node_type.isSome = true → c2.node_type.isSome = true)
  ∧ (c1.heading_level.isSome = true → c2.heading_level.isSome = true)
  ∧ (c1.is_checked.isSome = true → c2.is_checked.isSome = true)
  ∧ (c1.color.isSome = true → c2.color.isSome = true)
  ∧ (c1.tags.isSome = true → c2.tags.isSome = true)
  ∧ (c1.date.isSome = true → c2.date.isSome = true)
  ∧ (c1.date_recurrence.isSome = true → c2.date_recurrence.isSome = true)
  ∧ (c1.collapsed.isSome = true → c2.collapsed.isSome = true)
  ∧ (c1.mirror_source_id.isSome = true → c2.mirror_source_id.isSome = true)

instance (c1 c2 : NodeChanges) : Decidable (c1.presentIn c2) := by
  unfold NodeChanges.presentIn
  infer_instance

theorem option_none_of_presentIn {α β : Type} {o1 : Option α} {o2 : Option β}
    (h : o1.isSome = true → o2.isSome = true) (h2 : o2 = none) : o1 = none := by
  cases ho : o1 with
  | none => rfl
  | some a =>
    exfalso
    have := h (by rw [ho]; rfl)
    rw [h2] at this
    exact Bool.false_ne_true this

theorem applyChanges_updated_at (c : NodeChanges) (t : Timestamp) (n : Node) :
    (applyChanges c t n).updated_at = t := rfl

theorem Node.extEq {a b : Node} (e1 : a.id = b.id) (e2 : a.parent_id = b.parent_id)
    (e3 : a.position = b.position) (e4 : a.content = b.content)
    (e5 : a.note = b.note) (e6 : a.node_type = b.node_type)
    (e7 : a.heading_level = b.heading_level) (e8 : a.is_checked = b.is_checked)
    (e9 : a.color = b.color) (e10 : a.tags = b.tags) (e11 : a.date = b.date)
    (e12 : a.date_recurrence = b.date_recurrence) (e13 : a.collapsed = b.collapsed)
    (e14 : a.mirror_source_id = b.mirror_source_id)
    (e15 : a.created_at = b.created_at) (e16 : a.updated_at = b.updated_at) :
    a = b := by
  cases a; cases b
  dsimp only at e1 e2 e3 e4 e5 e6 e7 e8 e9 e10 e11 e12 e13 e14 e15 e16
  subst e1 e2 e3 e4 e5 e6 e7 e8 e9 e10 e11 e12 e13 e14 e15 e16
  rfl

theorem applyChanges_override (c1 c2 : NodeChanges) (t1 t2 : Timestamp) (n : Node)
    (hsub : c1.presentIn c2) :
    applyChanges c2 t2 (applyChanges c1 t1 n) = applyChanges c2 t2 n := by
  obtain ⟨h1, h2, h3, h4, h5, h6, h7, h8, h9, h10, h11⟩ := hsub
  refine Node.extEq ?_ ?_ ?_ ?_ ?_ ?_ ?_ ?_ ?_ ?_ ?_ ?_ ?_ ?_ ?_ ?_
  · simp [applyChanges]
  · simp [applyChanges]
  · simp [applyChanges]
  · cases hc : c2.content
    · simp [applyChanges, hc, option_none_of_presentIn h1 hc]
    · simp [applyChanges, hc]
  · cases hc : c2.note
    · simp [applyChanges, hc, option_none_of_presentIn h2 hc]
    · simp [applyChanges, hc]
  · cases hc : c2.node_type
    · simp [applyChanges, hc, option_none_of_presentIn h3 hc]
    · simp [applyChanges, hc]
  · cases hc : c2.heading_level
    · simp [applyChanges, hc, option_none_of_presentIn h4 hc]
    · simp [applyChanges, hc]
  · cases hc : c2.is_checked
    · simp [applyChanges, hc, option_none_of_presentIn h5 hc]
    · simp [applyChanges, hc]
  · cases hc : c2.color
    · simp [applyChanges, hc, option_none_of_presentIn h6 hc]
    · simp [applyChanges, hc]
  · cases hc : c2.tags
    · simp [applyChanges, hc, option_none_of_presentIn h7 hc]
    · simp [applyChanges, hc]
  · cases hc : c2.date
    · simp [applyChanges, hc, option_none_of_presentIn h8 hc]
    · simp [applyChanges, hc]
  · cases hc : c2.date_recurrence
    · simp [applyChanges, hc, option_none_of_presentIn h9 hc]
    · simp [applyChanges, hc]
  · cases hc : c2.collapsed
    · simp [applyChanges, hc, option_none_of_presentIn h10 hc]
    · simp [applyChanges, hc]
  · cases hc : c2.mirror_source_id
    · simp [applyChanges, hc, option_none_of_presentIn h11 hc]
    · simp [applyChanges, hc]
  · simp [applyChanges]
  · simp [applyChanges]

theorem updateFirst_comm (p : Node → Bool) (f g : Node → Node)
    (hpf : ∀ n, p (f n) = p n) (hpg : ∀ n, p (g n) = p n)
    (hfg : ∀ n, g (f n) = f (g n)) :
    ∀ l : List Node, updateFirst p g (updateFirst p f l)
      = updateFirst p f (updateFirst p g l) := by
  intro l
  induction l with
  | nil => rfl
  | cons n rest ih =>
    by_cases hp : p n = true
    · rw [updateFirst_cons_match p f n rest hp, updateFirst_cons_match p g n rest hp,
        updateFirst_cons_match p g (f n) rest (by rw [hpf n]; exact hp),
        updateFirst_cons_match p f (g n) rest (by rw [hpg n]; exact hp), hfg n]
    · have hp2 : p n = false := Bool.not_eq_true _ ▸ hp
      simp only [updateFirst, hp2, Bool.false_eq_true, if_false, List.cons.injEq,
        true_and]
      exact ih

/-- The claim of C4 is false as stated: with two Updates on the same node
at strictly increasing timestamps, applying them in increasing order keeps
the first patch's changes to fields the second patch does not touch, while
the reverse order makes the earlier Update a pure no-op.  Here `u1` sets
`content` at time 1 and `u2` sets `note` at time 2 on a node with
`updated_at = 0`: one order ends with content "A", the other with
content "w". -/
theorem update_commute_counterexample :
    ¬ ((Operation.update 1 { note := some "B" } 2).apply
        ((Operation.update 1 { content := some "A" } 1).apply ⟨[nodeW]⟩)
      = (Operation.update 1 { content := some "A" } 1).apply
        ((Operation.update 1 { note := some "B" } 2).apply ⟨[nodeW]⟩)) := by
  decide

/-- C4 (amended): for every document state and every pair of Update
operations `u1`, `u2` on the same node with `u1.updated_at` strictly less
than `u2.updated_at` and such that every field present in `u1.changes` is
also present in `u2.changes`, applying `u1` then `u2` yields the same
state as applying `u2` then `u1`. -/
theorem update_commute (s : DocumentState) (i : Uuid) (c1 c2 : NodeChanges)
    (t1 t2 : Timestamp) (hlt : t1 < t2) (hsub : c1.presentIn c2) :
    (Operation.update i c2 t2).apply ((Operation.update i c1 t1).apply s)
      = (Operation.update i c1 t1).apply ((Operation.update i c2 t2).apply s) := by
  show DocumentState.mk _ = DocumentState.mk _
  have := updateFirst_comm (fun n => n.id == i)
    (fun n => if t1 > n.updated_at then applyChanges c1 t1 n else n)
    (fun n => if t2 > n.updated_at then applyChanges c2 t2 n else n)
    (fun n => by by_cases hg : t1 > n.updated_at <;> simp [hg, applyChanges])
    (fun n => by by_cases hg : t2 > n.updated_at <;> simp [hg, applyChanges])
    (fun n => by
      dsimp only
      by_cases hg1 : t1 > n.updated_at
      · have hg2 : t2 > n.updated_at := lt_trans hg1 hlt
        rw [if_pos hg1, if_pos hg2]
        have hga : t2 > (applyChanges c1 t1 n).updated_at := by
          rw [applyChanges_updated_at]; exact hlt
        have hgb : ¬ t1 > (applyChanges c2 t2 n).updated_at := by
          rw [applyChanges_updated_at]; exact Nat.lt_asymm hlt
        rw [if_pos hga, if_neg hgb]
        exact applyChanges_override c1 c2 t1 t2 n hsub
      · rw [if_neg hg1]
        by_cases hg2 : t2 > n.updated_at
        · have hgb : ¬ t1 > (applyChanges c2 t2 n).updated_at := by
            rw [applyChanges_updated_at]; exact Nat.lt_asymm hlt
          rw [if_pos hg2, if_neg hgb]
        · rw [if_neg hg2, if_neg hg1])
    s.nodes
  exact congrArg DocumentState.mk this

/-- Closed instance of `update_commute`. -/
theorem update_commute_witness :
    (Operation.update 1 { content := some "B" } 2).apply
        ((Operation.update 1 { content := some "A" } 1).apply ⟨[nodeW]⟩)
      = (Operation.update 1 { content := some "A" } 1).apply
        ((Operation.update 1 { content := some "B" } 2).apply ⟨[nodeW]⟩) :=
  update_commute ⟨[nodeW]⟩ 1 { content := some "A" } { content := some "B" } 1 2
    (by decide) (by decide)

/-! ## C3: idempotence of sorted replay -/

/-- Whether an operation is a Delete. -/
def Operation.isDelete : Operation → Bool
  | .delete _ _ => true
  | _ => false

/-- The `find(|n| n.id == *id)` search of `Operation::apply`. -/
def lookup (s : DocumentState) (i : Uuid) : Option Node :=
  s.nodes.find? (fun n => n.id == i)

theorem find?_updateFirst_self (p : Node → Bool) (f : Node → Node)
    (hp : ∀ n, p (f n) = p n) :
    ∀ l : List Node, List.find? p (updateFirst p f l) = (List.find? p l).map f := by
  intro l
  induction l with
  | nil => rfl
  | cons n rest ih =>
    by_cases hn : p n = true
    · rw [updateFirst_cons_match p f n rest hn,
        List.find?_cons_of_pos rest (by rw [hp n]; exact hn),
        List.find?_cons_of_pos rest hn]
      rfl
    · have hn2 : p n = false := Bool.not_eq_true _ ▸ hn
      simp only [updateFirst, hn2, Bool.false_eq_true, if_false]
      rw [List.find?_cons_of_neg _ hn, List.find?_cons_of_neg _ hn]
      exact ih

theorem find?_updateFirst (p q : Node → Bool) (f : Node → Node)
    (hp : ∀ n, p (f n) = p n) :
    ∀ l : List Node,
      List.find? p (updateFirst q f l) = List.find? p l
      ∨ ∃ n, List.find? p l = some n
          ∧ List.find? p (updateFirst q f l) = some (f n) := by
  intro l
  induction l with
  | nil => exact Or.inl rfl
  | cons n rest ih =>
    by_cases hq : q n = true
    · rw [updateFirst_cons_match q f n rest hq]
      by_cases hn : p n = true
      · refine Or.inr ⟨n, List.find?_cons_of_pos rest hn, ?_⟩
        exact List.find?_cons_of_pos rest (by rw [hp n]; exact hn)
      · refine Or.inl ?_
        rw [List.find?_cons_of_neg _ (by rw [hp n]; exact hn),
          List.find?_cons_of_neg _ hn]
    · have hq2 : q n = false := Bool.not_eq_true _ ▸ hq
      simp only [updateFirst, hq2, Bool.false_eq_true, if_false]
      by_cases hn : p n = true
      · exact Or.inl (by rw [List.find?_cons_of_pos _ hn, List.find?_cons_of_pos _ hn])
      · rw [List.find?_cons_of_neg _ hn, List.find?_cons_of_neg _ hn]
        exact ih

/-- Characterization of `lookup` after a non-Delete apply: the lookup
result is unchanged, or the found node evolved in place with a
non-decreasing timestamp, or the id was absent and a Create inserted it
stamped with the operation's own timestamp. -/
theorem lookup_apply (op : Operation) (hop : op.isDelete = false)
    (s : DocumentState) (i : Uuid) :
    lookup (op.apply s) i = lookup s i
    ∨ (∃ n, lookup s i = some n
        ∧ ∃ n2, lookup (op.apply s) i = some n2 ∧ n.updated_at ≤ n2.updated_at)
    ∨ (lookup s i = none
        ∧ ∃ n2, lookup (op.apply s) i = some n2 ∧ n2.updated_at = op.updated_at) := by
  cases op with
  | create cid pid pos c nt t =>
    by_cases hex : s.nodes.any (fun n => n.id == cid)
    · left
      show lookup (if _ then s else _) i = _
      rw [if_pos hex]
    · have happly : ((Operation.create cid pid pos c nt t).apply s).nodes
          = s.nodes ++ [createdNode cid pid pos c nt t] := by
        simp [Operation.apply, hex]
      unfold lookup
      rw [happly, List.find?_append]
      cases hf : List.find? (fun n => n.id == i) s.nodes with
      | some n =>
        left
        rfl
      | none =>
        by_cases hid : cid = i
        · subst hid
          right; right
          refine ⟨rfl, ?_⟩
          refine ⟨createdNode cid pid pos c nt t, ?_, rfl⟩
          simp [List.find?, createdNode]
        · left
          have hbeq : (cid == i) = false := beq_eq_false_iff_ne.2 hid
          simp [List.find?, createdNode, hbeq]
    | update uid ch t =>
      rcases find?_updateFirst (fun n => n.id == i) (fun n => n.id == uid)
        (fun n => if t > n.updated_at then applyChanges ch t n else n)
        (fun n => by by_cases hg : t > n.updated_at <;> simp [hg, applyChanges])
        s.nodes with h | ⟨n, h1, h2⟩
      · exact Or.inl h
      · right; left
        refine ⟨n, h1, _, h2, ?_⟩
        by_cases hg : t > n.updated_at
        · rw [if_pos hg, applyChanges_updated_at]
          exact Nat.le_of_lt hg
        · rw [if_neg hg]
    | move mid pid pos t =>
      rcases find?_updateFirst (fun n => n.id == i) (fun n => n.id == mid)
        (fun n => if t > n.updated_at then
            { n with parent_id := pid, position := pos, updated_at := t } else n)
        (fun n => by by_cases hg : t > n.updated_at <;> simp [hg])
        s.nodes with h | ⟨n, h1, h2⟩
      · exact Or.inl h
      · right; left
        refine ⟨n, h1, _, h2, ?_⟩
        by_cases hg : t > n.updated_at
        · rw [if_pos hg]
          exact Nat.le_of_lt hg
        · rw [if_neg hg]
    | delete _ _ => cases hop

/-- An operation is fully absorbed by a state: replaying it there is a
no-op.  For a Create the id must be present; for an Update or Move any
node found at the id must already carry a timestamp at least the
operation's. -/
def AbsorbedUp : Operation → DocumentState → Prop
  | .create i _ _ _ _ _, s => (lookup s i).isSome = true
  | .update i _ t, s => ∀ n, lookup s i = some n → t ≤ n.updated_at
  | .move i _ _ t, s => ∀ n, lookup s i = some n → t ≤ n.updated_at
  | .delete _ _, _ => False

theorem updateFirst_eq_self (p : Node → Bool) (f : Node → Node) :
    ∀ l : List Node, (∀ n, List.find? p l = some n → f n = n) →
      updateFirst p f l = l := by
  intro l
  induction l with
  | nil => intro _; rfl
  | cons n rest ih =>
    intro h
    by_cases hn : p n = true
    · rw [updateFirst_cons_match p f n rest hn,
        h n (List.find?_cons_of_pos rest hn)]
    · have hn2 : p n = false := Bool.not_eq_true _ ▸ hn
      simp only [updateFirst, hn2, Bool.false_eq_true, if_false, List.cons.injEq,
        true_and]
      exact ih fun m hm => h m (by rw [List.find?_cons_of_neg _ hn]; exact hm)

theorem absorbed_noop (op : Operation) (hop : op.isDelete = false)
    (s : DocumentState) (h : AbsorbedUp op s) : op.apply s = s := by
  cases op with
  | create cid pid pos c nt t =>
    have h2 : (lookup s cid).isSome = true := h
    have hex : s.nodes.any (fun n => n.id == cid) = true := by
      unfold lookup at h2
      cases hf : List.find? (fun n => n.id == cid) s.nodes with
      | none => rw [hf] at h2; cases h2
      | some n =>
        rw [List.any_eq_true]
        have hp := List.find?_some hf
        exact ⟨n, List.mem_of_find?_eq_some hf, hp⟩
    show (if _ then s else _) = s
    rw [if_pos hex]
  | update uid ch t =>
    have h2 : ∀ n, lookup s uid = some n → t ≤ n.updated_at := h
    show DocumentState.mk _ = s
    have heq : updateFirst (fun n => n.id == uid)
        (fun n => if t > n.updated_at then applyChanges ch t n else n) s.nodes
        = s.nodes := by
      refine updateFirst_eq_self _ _ s.nodes fun n hn => ?_
      exact if_neg fun hg => absurd (h2 n hn) (Nat.not_le_of_lt hg)
    rw [heq]
  | move mid pid pos t =>
    have h2 : ∀ n, lookup s mid = some n → t ≤ n.updated_at := h
    show DocumentState.mk _ = s
    have heq : updateFirst (fun n => n.id == mid)
        (fun n => if t > n.updated_at then
          { n with parent_id := pid, position := pos, updated_at := t } else n) s.nodes
        = s.nodes := by
      refine updateFirst_eq_self _ _ s.nodes fun n hn => ?_
      exact if_neg fun hg => absurd (h2 n hn) (Nat.not_le_of_lt hg)
    rw [heq]
  | delete _ _ => cases h

theorem absorbedUp_self (op : Operation) (hop : op.isDelete = false)
    (s : DocumentState) : AbsorbedUp op (op.apply s) := by
  cases op with
  | create cid pid pos c nt t =>
    show (lookup _ cid).isSome = true
    by_cases hex : s.nodes.any (fun n => n.id == cid)
    · have happly : (Operation.create cid pid pos c nt t).apply s = s := by
        show (if _ then s else _) = s
        rw [if_pos hex]
      rw [happly]
      unfold lookup
      rw [List.find?_isSome]
      rw [List.any_eq_true] at hex
      exact hex
    · have happly : ((Operation.create cid pid pos c nt t).apply s).nodes
          = s.nodes ++ [createdNode cid pid pos c nt t] := by
        simp [Operation.apply, hex]
      unfold lookup
      rw [happly, List.find?_append]
      cases hf : List.find? (fun n => n.id == cid) s.nodes with
      | some n => rfl
      | none => simp [List.find?, createdNode]
  | update uid ch t =>
    show ∀ n2, lookup _ uid = some n2 → t ≤ n2.updated_at
    intro n2 h2
    unfold lookup at h2
    rw [show ((Operation.update uid ch t).apply s).nodes
        = updateFirst (fun n => n.id == uid)
            (fun n => if t > n.updated_at then applyChanges ch t n else n) s.nodes
      from rfl] at h2
    rw [find?_updateFirst_self _ _
      (fun n => by by_cases hg : t > n.updated_at <;> simp [hg, applyChanges])] at h2
    cases hf : List.find? (fun n => n.id == uid) s.nodes with
    | none => rw [hf] at h2; cases h2
    | some n =>
      rw [hf] at h2
      have h3 : (if t > n.updated_at then applyChanges ch t n else n) = n2 :=
        Option.some.inj h2
      subst h3
      by_cases hg : t > n.updated_at
      · rw [if_pos hg, applyChanges_updated_at]
      · rw [if_neg hg]
        exact Nat.le_of_not_lt hg
  | move mid pid pos t =>
    show ∀ n2, lookup _ mid = some n2 → t ≤ n2.updated_at
    intro n2 h2
    unfold lookup at h2
    rw [show ((Operation.move mid pid pos t).apply s).nodes
        = updateFirst (fun n => n.id == mid)
            (fun n => if t > n.updated_at then
              { n with parent_id := pid, position := pos, updated_at := t } else n)
            s.nodes
      from rfl] at h2
    rw [find?_updateFirst_self _ _
      (fun n => by by_cases hg : t > n.updated_at <;> simp [hg])] at h2
    cases hf : List.find? (fun n => n.id == mid) s.nodes with
    | none => rw [hf] at h2; cases h2
    | some n =>
      rw [hf] at h2
      have h3 : (if t > n.updated_at then
          { n with parent_id := pid, position := pos, updated_at := t } else n) = n2 :=
        Option.some.inj h2
      subst h3
      by_cases hg : t > n.updated_at
      · rw [if_pos hg]
      · rw [if_neg hg]
        exact Nat.le_of_not_lt hg
  | delete _ _ => cases hop


theorem absorbedUp_preserved (op2 op : Operation) (hop : op.isDelete = false)
    (hle : op2.updated_at ≤ op.updated_at) (s : DocumentState)
    (h : AbsorbedUp op2 s) : AbsorbedUp op2 (op.apply s) := by
  cases op2 with
  | create cid pid pos c nt t =>
    have h2 : (lookup s cid).isSome = true := h
    show (lookup (op.apply s) cid).isSome = true
    rcases lookup_apply op hop s cid with heq | ⟨n, h1, n2, h3, _⟩ | ⟨hnone, _⟩
    · rw [heq]; exact h2
    · rw [h3]; rfl
    · rw [hnone] at h2; cases h2
  | update uid ch t =>
    have h2 : ∀ n, lookup s uid = some n → t ≤ n.updated_at := h
    show ∀ n2, lookup (op.apply s) uid = some n2 → t ≤ n2.updated_at
    intro n2 hn2
    rcases lookup_apply op hop s uid with heq | ⟨n, h1, n2b, h3, hle2⟩ | ⟨hnone, n2b, h3, hts⟩
    · rw [heq] at hn2
      exact h2 n2 hn2
    · rw [h3] at hn2
      have := Option.some.inj hn2
      subst this
      exact Nat.le_trans (h2 n h1) hle2
    · rw [h3] at hn2
      have := Option.some.inj hn2
      subst this
      rw [hts]
      exact hle
  | move mid pid pos t =>
    have h2 : ∀ n, lookup s mid = some n → t ≤ n.updated_at := h
    show ∀ n2, lookup (op.apply s) mid = some n2 → t ≤ n2.updated_at
    intro n2 hn2
    rcases lookup_apply op hop s mid with heq | ⟨n, h1, n2b, h3, hle2⟩ | ⟨hnone, n2b, h3, hts⟩
    · rw [heq] at hn2
      exact h2 n2 hn2
    · rw [h3] at hn2
      have := Option.some.inj hn2
      subst this
      exact Nat.le_trans (h2 n h1) hle2
    · rw [h3] at hn2
      have := Option.some.inj hn2
      subst this
      rw [hts]
      exact hle
  | delete _ _ => cases h

theorem absorbedUp_applyList (op2 : Operation) :
    ∀ (ops : List Operation) (s : DocumentState),
      (∀ op ∈ ops, op.isDelete = false ∧ op2.updated_at ≤ op.updated_at) →
      AbsorbedUp op2 s → AbsorbedUp op2 (applyList ops s) := by
  intro ops
  induction ops with
  | nil => intro s _ h; exact h
  | cons op rest ih =>
    intro s hops h
    show AbsorbedUp op2 (applyList rest (op.apply s))
    exact ih (op.apply s) (fun o ho => hops o (List.mem_cons_of_mem _ ho))
      (absorbedUp_preserved op2 op (hops op (List.mem_cons_self _ _)).1
        (hops op (List.mem_cons_self _ _)).2 s h)

theorem all_absorbed :
    ∀ (L : List Operation), L.Pairwise opLe → (∀ op ∈ L, op.isDelete = false) →
      ∀ (s : DocumentState), ∀ op ∈ L, AbsorbedUp op (applyList L s) := by
  intro L
  induction L with
  | nil => intro _ _ s op hop; cases hop
  | cons o rest ih =>
    intro hsort hnd s op hop
    rw [List.pairwise_cons] at hsort
    rcases List.mem_cons.1 hop with rfl | hop2
    · show AbsorbedUp op (applyList rest (op.apply s))
      refine absorbedUp_applyList op rest (op.apply s) ?_ ?_
      · intro o2 ho2
        exact ⟨hnd o2 (List.mem_cons_of_mem _ ho2), hsort.1 o2 ho2⟩
      · exact absorbedUp_self op (hnd op (List.mem_cons_self _ _)) s
    · show AbsorbedUp op (applyList rest (o.apply s))
      exact ih hsort.2 (fun o2 ho2 => hnd o2 (List.mem_cons_of_mem _ ho2)) (o.apply s)
        op hop2

theorem applyList_noop :
    ∀ (L : List Operation) (s : DocumentState), (∀ op ∈ L, op.apply s = s) →
      applyList L s = s := by
  intro L
  induction L with
  | nil => intro s _; rfl
  | cons o rest ih =>
    intro s h
    show applyList rest (o.apply s) = s
    rw [h o (List.mem_cons_self _ _)]
    exact ih s fun op hop => h op (List.mem_cons_of_mem _ hop)

/-- A second node used in counterexamples, identical to `nodeW` except for
its id. -/
def nodeTwo : Node := { nodeW with id := 2 }

/-- The claim of C3 is false as stated: a Delete re-fires unconditionally
on the second replay and cascades onto a node that a later Move in the
same log re-parented under the deleted id.  With one node of id 2 and the
sorted log `[Delete 1 (t=2), Move 2 under 1 (t=3)]`, the first replay
keeps node 2 (nothing has parent 1 when the Delete runs) and then moves it
under 1; the second replay's Delete then cascades into node 2 and removes
it, so replaying twice is not the same as replaying once. -/
theorem sorted_replay_not_idempotent :
    ¬ (applyList (sortOps [Operation.delete 1 2, Operation.move 2 (some 1) 0 3])
        (applyList (sortOps [Operation.delete 1 2, Operation.move 2 (some 1) 0 3])
          ⟨[nodeTwo]⟩)
      = applyList (sortOps [Operation.delete 1 2, Operation.move 2 (some 1) 0 3])
          ⟨[nodeTwo]⟩) := by
  decide

/-- C3 (amended): for every operation sequence L that contains no Delete
operation and every initial state S, applying L sorted by `updated_at` to
S and then applying the same sorted L a second time to the resulting state
yields the same state as applying it once.  (With Deletes the property
fails, see `sorted_replay_not_idempotent`: a Delete is applied
unconditionally and can consume nodes that were re-parented beneath the
deleted id by operations later in the log.) -/
theorem sorted_replay_idempotent (L : List Operation) (s : DocumentState)
    (hnd : ∀ op ∈ L, op.isDelete = false) :
    applyList (sortOps L) (applyList (sortOps L) s) = applyList (sortOps L) s := by
  have hsorted : (sortOps L).Pairwise opLe := List.sorted_insertionSort opLe L
  have hnd2 : ∀ op ∈ sortOps L, op.isDelete = false := fun op hop =>
    hnd op ((List.perm_insertionSort opLe L).subset hop)
  refine applyList_noop (sortOps L) (applyList (sortOps L) s) ?_
  intro op hop
  exact absorbed_noop op (hnd2 op hop) _ (all_absorbed (sortOps L) hsorted hnd2 s op hop)

/-- Closed instance of `sorted_replay_idempotent`. -/
theorem sorted_replay_idempotent_witness :
    applyList (sortOps [Operation.create 1 none 0 "a" .bullet 1])
      (applyList (sortOps [Operation.create 1 none 0 "a" .bullet 1]) ⟨[]⟩)
    = applyList (sortOps [Operation.create 1 none 0 "a" .bullet 1]) ⟨[]⟩ :=
  sorted_replay_idempotent [Operation.create 1 none 0 "a" .bullet 1] ⟨[]⟩ (by decide)

/-! ## C5: the load protocol of `Document::load` -/

/-- Embedding of the load protocol of `Document::load`
(`data/document.rs`): the snapshot state is parsed from `state.json` (or
empty), every `pending.*.jsonl` file contributes its parsed operation
lines in file order into one vector, the vector is sorted by `updated_at`
and applied in order; `pending_op_count` is the total number of collected
lines.  The filesystem enumeration and JSON parsing are outside the
embedding: `files` is the list of per-file operation-line lists. -/
def loadModel (snapshot : DocumentState) (files : List (List Operation)) :
    DocumentState × Nat :=
  let ops := files.foldl (fun acc f => acc ++ f) []
  let pending_op_count := ops.length
  (applyList (sortOps ops) snapshot, pending_op_count)

theorem foldl_append_eq_flatten :
    ∀ (files : List (List Operation)) (acc : List Operation),
      files.foldl (fun a f => a ++ f) acc = acc ++ files.flatten := by
  intro files
  induction files with
  | nil => intro acc; simp
  | cons f rest ih =>
    intro acc
    show List.foldl _ (acc ++ f) rest = _
    rw [ih (acc ++ f)]
    simp

/-- C5: Document load collects every operation line from all
`pending.*.jsonl` files in the document directory, sorts the full
collected list by `updated_at` ascending, and applies the operations in
that order to the snapshot state; in particular, when the files contain
Delete(X, T=10) and Create(X, T=5), the loaded state contains no node X. -/
theorem load_semantics :
    (∀ (snapshot : DocumentState) (files : List (List Operation)),
      (loadModel snapshot files).1 = applyList (sortOps files.flatten) snapshot
      ∧ (loadModel snapshot files).2 = files.flatten.length)
  ∧ (loadModel ⟨[]⟩ [[Operation.delete 9 10],
      [Operation.create 9 none 0 "x" .bullet 5]]).1.nodes = [] := by
  constructor
  · intro snapshot files
    constructor
    · show applyList (sortOps (files.foldl (fun a f => a ++ f) [])) snapshot = _
      rw [foldl_append_eq_flatten files []]
      rfl
    · show (files.foldl (fun a f => a ++ f) []).length = _
      rw [foldl_append_eq_flatten files []]
      rfl
  · decide

/-! ## C6, C7: append failure propagation and the auto-compaction threshold -/

/-- In-memory document handle as used by `save_op`: the in-memory state
plus `pending_op_count` (`Document` in `data/document.rs`; the directory
path and `last_load_time` play no role in these claims). -/
structure DocModel where
  state : DocumentState
  pending_op_count : Nat
deriving DecidableEq, Repr

/-- Outcome of one fallible filesystem or serialization step, supplied by
the environment; `Except.error e` carries the message the failing call
produced. -/
abbrev IoOutcome := Except String Unit

/-- `Document::append_op` (`data/document.rs`): open the pending file,
serialize the operation, write the line, flush; only after all fallible
steps succeed is `pending_op_count` incremented.  A failing step returns
its error (with the source's message prefix, minus the path) and leaves
the document untouched. -/
def DocModel.append_op (d : DocModel)
    (openRes serRes writeRes flushRes : IoOutcome) :
    DocModel × Except String Unit :=
  match openRes with
  | .error e => (d, .error ("Open pending file: " ++ e))
  | .ok _ =>
    match serRes with
    | .error e => (d, .error ("Serialize op: " ++ e))
    | .ok _ =>
      match writeRes with
      | .error e => (d, .error ("Write op: " ++ e))
      | .ok _ =>
        match flushRes with
        | .error e => (d, .error ("Flush pending file: " ++ e))
        | .ok _ => ({ d with pending_op_count := d.pending_op_count + 1 }, .ok ())

/-- `Document::should_auto_compact` (`data/document.rs`): 1000 pending
operations, or a pending file size of at least 1,000,000 bytes
(`1_000_000` in the source); a metadata failure
(`pendingFileSize = none`) means the size branch does not fire. -/
def DocModel.should_auto_compact (d : DocModel)
    (pendingFileSize : Option Nat) : Bool :=
  if d.pending_op_count ≥ 1000 then true
  else
    match pendingFileSize with
    | some size => if size ≥ 1000000 then true else false
    | none => false

/-- `Document::compact` (`data/document.rs`): write `state.json`, delete
all pending files, then reset `pending_op_count`; a failing step
propagates its error and skips the rest. -/
def DocModel.compact (d : DocModel) (saveRes clearRes : IoOutcome) :
    DocModel × Except String Unit :=
  match saveRes with
  | .error e => (d, .error e)
  | .ok _ =>
    match clearRes with
    | .error e => (d, .error e)
    | .ok _ => ({ d with pending_op_count := 0 }, .ok ())

/-- `save_op` from `commands.rs`: append the operation to the pending
file (propagating failure before anything else happens), apply it to the
in-memory state, then auto-compact when the threshold is reached, logging
and ignoring a compaction failure; returns the resulting state. -/
def save_op (d : DocModel) (op : Operation)
    (openRes serRes writeRes flushRes : IoOutcome) (pendingFileSize : Option Nat)
    (saveRes clearRes : IoOutcome) : DocModel × Except String DocumentState :=
  match d.append_op openRes serRes writeRes flushRes with
  | (d1, .error e) => (d1, .error e)
  | (d1, .ok _) =>
    let d2 := { d1 with state := op.apply d1.state }
    let d3 := if d2.should_auto_compact pendingFileSize then
        (d2.compact saveRes clearRes).1
      else d2
    (d3, .ok d3.state)

/-- C6: when the append of an operation to the machine's pending log file
fails, the failure is propagated to the caller as a string error and the
in-memory document is not mutated: the operation is not applied, the
state and the pending counter are unchanged. -/
theorem save_op_append_failure (d : DocModel) (op : Operation)
    (o s w f : IoOutcome) (sz : Option Nat) (sv cl : IoOutcome) (e : String)
    (h : (d.append_op o s w f).2 = .error e) :
    save_op d op o s w f sz sv cl = (d, .error e)
    ∧ (d.append_op o s w f).1 = d := by
  cases o <;> cases s <;> cases w <;> cases f <;>
    simp_all [save_op, DocModel.append_op]

/-- Closed instance of `save_op_append_failure`: a failing open. -/
theorem save_op_append_failure_witness :
    save_op ⟨⟨[]⟩, 0⟩ (Operation.delete 1 1) (.error "disk full") (.ok ()) (.ok ())
        (.ok ()) none (.ok ()) (.ok ())
      = (⟨⟨[]⟩, 0⟩, .error "Open pending file: disk full")
    ∧ (DocModel.append_op ⟨⟨[]⟩, 0⟩ (.error "disk full") (.ok ()) (.ok ())
        (.ok ())).1 = ⟨⟨[]⟩, 0⟩ :=
  save_op_append_failure ⟨⟨[]⟩, 0⟩ (Operation.delete 1 1) (.error "disk full")
    (.ok ()) (.ok ()) (.ok ()) none (.ok ()) (.ok ()) "Open pending file: disk full" rfl

/-- The claim of C7 is false on the byte threshold: the source triggers
auto-compaction at a pending file size of 1,000,000 bytes, which is below
the claimed 1 MiB = 1,048,576 bytes.  With one pending operation and a
file of exactly 1,000,000 bytes the code compacts while the claim says it
must not. -/
theorem auto_compact_threshold_counterexample :
    DocModel.should_auto_compact ⟨⟨[]⟩, 1⟩ (some 1000000) = true
    ∧ ¬ (1 ≥ 1000) ∧ ¬ (1000000 ≥ 1048576) := by
  decide

/-- C7 (amended): after appending an operation, auto-compaction is
triggered if and only if `pending_op_count` is at least 1000 or the
machine's own pending file size is at least 1,000,000 bytes (the source
uses `1_000_000`, not 1 MiB); a compaction failure is logged and does not
fail the mutation. -/
theorem auto_compact_semantics (d : DocModel) (sz : Option Nat)
    (op : Operation) (sv cl : IoOutcome) :
    (d.should_auto_compact sz = true
      ↔ (d.pending_op_count ≥ 1000 ∨ ∃ n, sz = some n ∧ n ≥ 1000000))
  ∧ (∃ st, (save_op d op (.ok ()) (.ok ()) (.ok ()) (.ok ()) sz sv cl).2
      = .ok st) := by
  constructor
  · unfold DocModel.should_auto_compact
    by_cases h1 : d.pending_op_count ≥ 1000
    · simp [h1]
    · cases sz with
      | none => simp [h1]
      | some n =>
        by_cases h2 : n ≥ 1000000
        · simp [h1, h2]
        · simp [h1, h2]
  · exact ⟨_, rfl⟩

/-- Closed instance of `auto_compact_semantics`. -/
theorem auto_compact_semantics_witness :
    (DocModel.should_auto_compact ⟨⟨[]⟩, 0⟩ none = true
      ↔ ((0 : Nat) ≥ 1000 ∨ ∃ n, (none : Option Nat) = some n ∧ n ≥ 1000000)) :=
  (auto_compact_semantics ⟨⟨[]⟩, 0⟩ none (Operation.delete 1 1) (.ok ()) (.ok ())).1

/-! ## C9: FTS query preprocessing -/

/-- Embedding of Rust `str::split_whitespace` as used by
`escape_fts_query` (`search/mod.rs`): split on runs of whitespace,
producing no empty words.  (`Char.isWhitespace` stands in for Rust's
Unicode `char::is_whitespace`; the two agree on ASCII.) -/
def splitWsAux : List Char → List Char → List String
  | [], acc => if acc.isEmpty then [] else [String.mk acc.reverse]
  | c :: cs, acc =>
    if c.isWhitespace then
      if acc.isEmpty then splitWsAux cs []
      else String.mk acc.reverse :: splitWsAux cs []
    else splitWsAux cs (c :: acc)

/-- Rust `query.split_whitespace().collect()`. -/
def splitWhitespace (s : String) : List String :=
  splitWsAux s.data []

/-- Rust `term.replace(c, doubled)` specialised to doubling every
embedded double quote. -/
def escapeQuotes (t : String) : String :=
  String.mk (t.data.foldr
    (fun c acc => if c = '\"' then '\"' :: '\"' :: acc else c :: acc) [])

/-- `escape_fts_query` from `search/mod.rs`. -/
def escape_fts_query (query : String) : String :=
  let terms := splitWhitespace query
  if terms.isEmpty then ""
  else
    String.intercalate " "
      (terms.map (fun term => "\"" ++ escapeQuotes term ++ "\"*"))

/-- Modelled from the claim's wording: one full-text term per
whitespace-separated word, each wrapped as a quoted term with a trailing
prefix-match wildcard (embedded double quotes doubled), joined by single
spaces. -/
def escapeFtsSpec (query : String) : String :=
  String.intercalate " "
    ((splitWhitespace query).map (fun w => "\"" ++ escapeQuotes w ++ "\"*"))

theorem splitWsAux_all_ws :
    ∀ cs : List Char, cs.all Char.isWhitespace = true → splitWsAux cs [] = [] := by
  intro cs
  induction cs with
  | nil => intro _; rfl
  | cons c rest ih =>
    intro h
    rw [List.all_cons, Bool.and_eq_true] at h
    show splitWsAux (c :: rest) [] = []
    unfold splitWsAux
    rw [if_pos h.1]
    simp only [List.isEmpty_nil, if_true]
    exact ih h.2

/-- C9: for every search query string, query preprocessing splits the
query on whitespace and produces one full-text term per word, each
wrapped as a quoted term with a trailing prefix-match wildcard (embedded
double quotes doubled), joined by single spaces so the terms combine with
implicit AND; an all-whitespace query yields the empty string. -/
theorem escape_fts_query_spec :
    (∀ q : String, escape_fts_query q = escapeFtsSpec q)
  ∧ (∀ q : String, q.data.all Char.isWhitespace = true →
      escape_fts_query q = "") := by
  constructor
  · intro q
    unfold escape_fts_query escapeFtsSpec
    cases h : splitWhitespace q with
    | nil => simp [h, String.intercalate]
    | cons w rest => simp [h]
  · intro q hq
    unfold escape_fts_query
    have h : splitWhitespace q = [] := splitWsAux_all_ws q.data hq
    simp [h]

/-- Closed instance of `escape_fts_query_spec` on an all-whitespace
query. -/
theorem escape_fts_query_spec_witness : escape_fts_query "  " = "" :=
  escape_fts_query_spec.2 "  " (by decide)

/-! ## C8: OPML / Dynalist import

Embedding of `parse_outline_element`, `process_dynalist_content`,
`convert_dynalist_recurrence` and `convert_dynalist_syntax` from
`import_export/opml.rs`.  The three regular expressions of the source are
embedded as deterministic scanners over `List Char`; each scanner follows
the unique way the corresponding regex can match (all three patterns use
only literals and negated single-character classes, so the regex engine's
backtracking never produces a different match).  Rust `\s` and
`str::trim` are Unicode; `Char.isWhitespace` stands in for them and
agrees on ASCII. -/

/-- Take exactly `k` ASCII digits from the front, as for a `\d{k}`
regex fragment. -/
def takeDigits : Nat → List Char → Option (List Char × List Char)
  | 0, cs => some ([], cs)
  | _ + 1, [] => none
  | k + 1, c :: cs =>
    if c.isDigit then
      match takeDigits k cs with
      | some (ds, rest) => some (c :: ds, rest)
      | none => none
    else none

/-- Match the date regex
`!\((\d{4}-\d{2}-\d{2})(?:\s*\|\s*([^)]+))?\)\s*` of
`process_dynalist_content` at the head of the input.  Returns the first
capture (the date), the second capture (the raw recurrence text, when the
pipe group matched) and the rest of the input after the match (the
trailing `\s*` is greedy). -/
def tryDateMatch (cs : List Char) : Option (String × Option String × List Char) :=
  match cs with
  | '!' :: '(' :: r0 =>
    match takeDigits 4 r0 with
    | none => none
    | some (y, r1) =>
      match r1 with
      | '-' :: r2 =>
        match takeDigits 2 r2 with
        | none => none
        | some (mo, r3) =>
          match r3 with
          | '-' :: r4 =>
            match takeDigits 2 r4 with
            | none => none
            | some (dy, r5) =>
              let dateStr := String.mk (y ++ '-' :: mo ++ '-' :: dy)
              match r5.dropWhile Char.isWhitespace with
              | '|' :: r6 =>
                let r7 := r6.dropWhile Char.isWhitespace
                let cap := r7.takeWhile (fun c => c != ')')
                if cap.isEmpty then none
                else
                  match r7.dropWhile (fun c => c != ')') with
                  | ')' :: r9 =>
                    some (dateStr, some (String.mk cap),
                      r9.dropWhile Char.isWhitespace)
                  | _ => none
              | _ =>
                match r5 with
                | ')' :: r9 =>
                  some (dateStr, none, r9.dropWhile Char.isWhitespace)
                | _ => none
          | _ => none
      | _ => none
  | _ => none

/-- The `captures` + `replace_all` pass of `process_dynalist_content`:
scan left to right, record the captures of the first match, remove every
match.  Fuel is the input length plus one; every step consumes at least
one character. -/
def removeDateMatches : Nat → List Char → Option (String × Option String) × List Char
  | 0, cs => (none, cs)
  | fuel + 1, cs =>
    match tryDateMatch cs with
    | some (d, r, rest) =>
      let out := removeDateMatches fuel rest
      (some (d, r), out.2)
    | none =>
      match cs with
      | [] => (none, [])
      | c :: cs2 =>
        let out := removeDateMatches fuel cs2
        (out.1, c :: out.2)

/-- Digit list to number, as for Rust `str::parse` on a digit string. -/
def digitsToNat (ds : List Char) : Nat :=
  ds.foldl (fun acc c => acc * 10 + (c.toNat - 48)) 0

/-- `convert_dynalist_recurrence` from `import_export/opml.rs`: strip
leading `~`, match `^(\d+)([dwmy])$`, map the unit to a frequency and
append `;INTERVAL=N` iff `N ≠ 1`.  Rust parses the digits as `u32` with
`unwrap_or(1)`, so a value beyond `u32::MAX` falls back to interval 1. -/
def convert_dynalist_recurrence (rec : String) : Option String :=
  let cs := rec.data.dropWhile (fun c => c = '~')
  let digits := cs.takeWhile Char.isDigit
  let rest := cs.dropWhile Char.isDigit
  if digits.isEmpty then none
  else
    match rest with
    | [u] =>
      let freq := if u = 'd' then some "DAILY"
        else if u = 'w' then some "WEEKLY"
        else if u = 'm' then some "MONTHLY"
        else if u = 'y' then some "YEARLY"
        else none
      match freq with
      | none => none
      | some f =>
        let v := digitsToNat digits
        let interval := if v > 4294967295 then 1 else v
        if interval = 1 then some ("FREQ=" ++ f)
        else some ("FREQ=" ++ f ++ ";INTERVAL=" ++ toString interval)
    | _ => none

/-- Match a literal prefix, returning the rest. -/
def dropLit : List Char → List Char → Option (List Char)
  | [], cs => some cs
  | _ :: _, [] => none
  | l :: ls, c :: cs => if c = l then dropLit ls cs else none

/-- Hex digit value, as used by percent-decoding. -/
def hexVal (c : Char) : Option Nat :=
  if '0' ≤ c ∧ c ≤ '9' then some (c.toNat - 48)
  else if 'a' ≤ c ∧ c ≤ 'f' then some (c.toNat - 87)
  else if 'A' ≤ c ∧ c ≤ 'F' then some (c.toNat - 55)
  else none

/-- `urlencoding::decode`, modelled per character: `%hh` becomes the
character with that code, anything else is kept.  (Multi-byte UTF-8
percent sequences are outside the model; the claims only exercise ASCII.) -/
def percentDecode : List Char → List Char
  | '%' :: a :: b :: rest =>
    match hexVal a, hexVal b with
    | some x, some y => Char.ofNat (16 * x + y) :: percentDecode rest
    | _, _ => '%' :: percentDecode (a :: b :: rest)
  | c :: rest => c :: percentDecode rest
  | [] => []

/-- `decoded.rsplit('/').next()`: the segment after the last slash. -/
def lastComponent (cs : List Char) : List Char :=
  cs.foldl (fun acc c => if c = '/' then [] else acc ++ [c]) []

/-- Match the Obsidian-link regex
`\[@ob\]\(obsidian://open\?vault=[^&]+&file=([^)]+)\)` of
`convert_dynalist_syntax` at the head of the input; on a match return the
replacement `[[basename(url-decoded file)]]` and the rest. -/
def tryObsidian (cs : List Char) : Option (String × List Char) :=
  match dropLit "[@ob](obsidian://open?vault=".data cs with
  | none => none
  | some r0 =>
    let vault := r0.takeWhile (fun c => c != '&')
    if vault.isEmpty then none
    else
      match dropLit "&file=".data (r0.dropWhile (fun c => c != '&')) with
      | none => none
      | some r2 =>
        let file := r2.takeWhile (fun c => c != ')')
        if file.isEmpty then none
        else
          match r2.dropWhile (fun c => c != ')') with
          | ')' :: r4 =>
            some ("[[" ++ String.mk (lastComponent (percentDecode file)) ++ "]]", r4)
          | _ => none

/-- Match the highlight regex `==([^=]+)==` at the head of the input;
returns the capture and the rest. -/
def tryHighlight (cs : List Char) : Option (List Char × List Char) :=
  match cs with
  | '=' :: '=' :: r0 =>
    let cap := r0.takeWhile (fun c => c != '=')
    if cap.isEmpty then none
    else
      match r0.dropWhile (fun c => c != '=') with
      | '=' :: '=' :: r2 => some (cap, r2)
      | _ => none
  | _ => none

/-- `replace_all` for the Obsidian-link regex. -/
def obsidianReplaceAll : Nat → List Char → List Char
  | 0, cs => cs
  | fuel + 1, cs =>
    match tryObsidian cs with
    | some (rep, rest) => rep.data ++ obsidianReplaceAll fuel rest
    | none =>
      match cs with
      | [] => []
      | c :: cs2 => c :: obsidianReplaceAll fuel cs2

/-- `replace_all` for the highlight regex, replacement
`<mark>$1</mark>`. -/
def highlightReplaceAll : Nat → List Char → List Char
  | 0, cs => cs
  | fuel + 1, cs =>
    match tryHighlight cs with
    | some (cap, rest) =>
      "<mark>".data ++ cap ++ "</mark>".data ++ highlightReplaceAll fuel rest
    | none =>
      match cs with
      | [] => []
      | c :: cs2 => c :: highlightReplaceAll fuel cs2

/-- `convert_dynalist_syntax` from `import_export/opml.rs`: Obsidian
links first, then highlights. -/
def convert_dynalist_syntax (text : String) : String :=
  let afterObsidian := obsidianReplaceAll (text.data.length + 1) text.data
  String.mk (highlightReplaceAll (afterObsidian.length + 1) afterObsidian)

/-- Rust `str::trim` (Unicode whitespace; `Char.isWhitespace` agrees on
ASCII). -/
def trimWs (s : String) : String :=
  String.mk
    (((s.data.dropWhile Char.isWhitespace).reverse.dropWhile Char.isWhitespace).reverse)

/-- `process_dynalist_content` from `import_export/opml.rs`: extract the
first date match (setting `date`, and `date_recurrence` via
`convert_dynalist_recurrence` of the trimmed second capture), remove all
date matches from the text, then convert the remaining Dynalist syntax. -/
def process_dynalist_content (text : String) :
    String × Option String × Option String :=
  let scanned := removeDateMatches (text.data.length + 1) text.data
  let converted := convert_dynalist_syntax (String.mk scanned.2)
  match scanned.1 with
  | none => (converted, none, none)
  | some (d, none) => (converted, some d, none)
  | some (d, some rec) => (converted, some d, convert_dynalist_recurrence (trimWs rec))

/-- Dynalist `colorLabel` mapping of `parse_outline_element`. -/
def dynColor (value : String) : Option String :=
  if value = "1" then some "red"
  else if value = "2" then some "orange"
  else if value = "3" then some "yellow"
  else if value = "4" then some "green"
  else if value = "5" then some "blue"
  else if value = "6" then some "purple"
  else none

/-- Dynalist `heading` attribute of `parse_outline_element`:
`value.parse::<u8>().ok().filter(|&h| h >= 1 && h <= 6)`. -/
def parseHeadingLevel (value : String) : Option Nat :=
  let ds := value.data
  if ds.isEmpty then none
  else if ds.all Char.isDigit then
    let v := digitsToNat ds
    if v > 255 then none
    else if 1 ≤ v ∧ v ≤ 6 then some v else none
  else none

/-- Attribute-loop state of `parse_outline_element`. -/
structure OutlineAttrState where
  text : String := ""
  note : Option String := none
  is_checked : Bool := false
  color : Option String := none
  heading_level : Option Nat := none
deriving DecidableEq, Repr

/-- One iteration of the attribute loop of `parse_outline_element`. -/
def applyAttr (st : OutlineAttrState) (kv : String × String) : OutlineAttrState :=
  if kv.1 = "text" then { st with text := kv.2 }
  else if kv.1 = "_note" then { st with note := some kv.2 }
  else if kv.1 = "complete" then { st with is_checked := kv.2 = "true" }
  else if kv.1 = "colorLabel" then { st with color := dynColor kv.2 }
  else if kv.1 = "heading" then { st with heading_level := parseHeadingLevel kv.2 }
  else st

/-- `parse_outline_element` from `import_export/opml.rs`, for one
`<outline>` element whose already-XML-decoded attributes are `attrs` and
whose parser-stack top frame is `parentTop = (parent_id, nextPosition)`.
`newId` and `now` stand for `Uuid::now_v7()` and `Utc::now()`.  Returns
the node and the updated top frame (`*pos += 1`). -/
def parse_outline_element (attrs : List (String × String))
    (parentTop : Option Uuid × Int) (newId : Uuid) (now : Timestamp) :
    Node × (Option Uuid × Int) :=
  let st := attrs.foldl applyAttr {}
  let processed := process_dynalist_content st.text
  let node_type := if st.heading_level.isSome then NodeType.heading
    else if st.is_checked then NodeType.checkbox
    else NodeType.bullet
  ({ id := newId
     parent_id := parentTop.1
     position := parentTop.2
     content := processed.1
     note := st.note.map convert_dynalist_syntax
     node_type := node_type
     heading_level := st.heading_level
     is_checked := st.is_checked
     color := st.color
     tags := []
     date := processed.2.1
     date_recurrence := processed.2.2
     collapsed := false
     mirror_source_id := none
     created_at := now
     updated_at := now },
   (parentTop.1, parentTop.2 + 1))

/-- The attributes of the S4 scenario element
`<outline text="Task !(2024-10-15 | 1m) " complete="true" colorLabel="1"/>`. -/
def s4Attrs : List (String × String) :=
  [("text", "Task !(2024-10-15 | 1m) "), ("complete", "true"), ("colorLabel", "1")]

/-- The claim of C8 is false on the content field: the source removes the
date token and the whitespace following it but never trims the text, so
the content of the parsed node is "Task " with a trailing space, not
"Task" (the repository's own test compares `content.trim()`). -/
theorem dynalist_import_counterexample :
    (parse_outline_element s4Attrs (none, 0) 99 0).1.content ≠ "Task" := by
  decide

/-- C8 (amended): parsing the OPML element
`<outline text="Task !(2024-10-15 | 1m) " complete="true" colorLabel="1"/>`
produces a node whose content is "Task " — the date token and the
whitespace after it are removed but the text is not trimmed, so the space
before the token survives and trimming it gives "Task" — with date
"2024-10-15", date_recurrence "FREQ=MONTHLY" (the interval suffix is
appended iff the interval differs from 1, shown here for `1m` and `3m`),
is_checked true, node_type checkbox, and color "red". -/
theorem dynalist_import_semantics :
    (parse_outline_element s4Attrs (none, 0) 99 0).1.content = "Task "
    ∧ (parse_outline_element s4Attrs (none, 0) 99 0).1.date = some "2024-10-15"
    ∧ (parse_outline_element s4Attrs (none, 0) 99 0).1.date_recurrence
        = some "FREQ=MONTHLY"
    ∧ (parse_outline_element s4Attrs (none, 0) 99 0).1.is_checked = true
    ∧ (parse_outline_element s4Attrs (none, 0) 99 0).1.node_type = NodeType.checkbox
    ∧ (parse_outline_element s4Attrs (none, 0) 99 0).1.color = some "red"
    ∧ convert_dynalist_recurrence "1m" = some "FREQ=MONTHLY"
    ∧ convert_dynalist_recurrence "3m" = some "FREQ=MONTHLY;INTERVAL=3" := by
  decide

end Outline
